import Mathlib

/-!
Shallow embedding of the Yorkie CRDT rich-text core (Go sources:
crdt/text.go, document/operation/set.go, document/json/object.go)
together with the parts of its environment that the sources use
(logical-clock tickets, the replicated hash table, the splittable
replicated sequence and the document-tree registry), plus theorems
checking the specification claims against this embedding.

Go strings are modelled as lists of runes (Unicode code points as
natural numbers); Go nil-able pointers are modelled as Option; in-place
mutation is modelled by returning the updated value.
-/

namespace crdt

/-- Modelled from the spec: a Ticket is the logical timestamp
`(lamport, delimiter, actorID)`; the Ticket implementation itself is not
part of the given sources. The fixed-size opaque actor identifier is
modelled as a natural number whose order stands for the lexicographic
order on identifier bytes. -/
structure Ticket where
  lamport : Nat
  delimiter : Nat
  actorID : Nat
deriving DecidableEq, Repr

/-- Modelled from the spec: total order on tickets, comparing lamport
first, then delimiter, then the actor identifier. -/
def Ticket.Compare (t other : Ticket) : Ordering :=
  if t.lamport < other.lamport then Ordering.lt
  else if other.lamport < t.lamport then Ordering.gt
  else if t.delimiter < other.delimiter then Ordering.lt
  else if other.delimiter < t.delimiter then Ordering.gt
  else if t.actorID < other.actorID then Ordering.lt
  else if other.actorID < t.actorID then Ordering.gt
  else Ordering.eq

/-- Modelled from the spec: `t.After(other)` holds when `t` is strictly
greater than `other` in the ticket order. -/
def Ticket.After (t other : Ticket) : Bool :=
  t.Compare other == Ordering.gt

/-- Strict lexicographic order underlying `Ticket.Compare`. -/
def Ticket.lexLt (t other : Ticket) : Prop :=
  t.lamport < other.lamport
    ∨ (t.lamport = other.lamport ∧ t.delimiter < other.delimiter)
    ∨ (t.lamport = other.lamport ∧ t.delimiter = other.delimiter
        ∧ t.actorID < other.actorID)

/-!
UTF-16 layer. `TextValue.Len` and `TextValue.Split` call the Go standard
library package `unicode/utf16`; the following definitions embed the
semantics of `utf16.Encode` and `utf16.Decode` on rune lists, including
the replacement-character behaviour on unpaired surrogates.
-/

/-- Go `utf16.Encode` restricted to a single rune: a valid BMP code point
is emitted as one unit, a code point above the BMP as a surrogate pair
(computed exactly as `utf16.EncodeRune` does), and anything else as the
replacement character U+FFFD. -/
def encodeRuneUnits (v : Nat) : List Nat :=
  if v < 0xD800 ∨ (0xE000 ≤ v ∧ v < 0x10000) then [v]
  else if 0x10000 ≤ v ∧ v ≤ 0x10FFFF then
    [0xD800 + (((v - 0x10000) >>> 10) &&& 0x3FF),
     0xDC00 + ((v - 0x10000) &&& 0x3FF)]
  else [0xFFFD]

/-- Go `utf16.Encode`: concatenation of the per-rune unit lists. -/
def utf16Encode : List Nat → List Nat
  | [] => []
  | v :: rest => encodeRuneUnits v ++ utf16Encode rest

/-- Go `utf16.DecodeRune` on an already-validated surrogate pair. -/
def decodeRune (r1 r2 : Nat) : Nat :=
  (((r1 - 0xD800) <<< 10) ||| (r2 - 0xDC00)) + 0x10000

/-- Go `utf16.Decode`: a non-surrogate unit decodes to itself, a high
surrogate followed by a low surrogate decodes as a pair, and every other
unit decodes to the replacement character U+FFFD. -/
def utf16Decode : List Nat → List Nat
  | [] => []
  | r :: rest =>
    if r < 0xD800 ∨ 0xE000 ≤ r then r :: utf16Decode rest
    else
      match rest with
      | [] => [0xFFFD]
      | r2 :: rest2 =>
        if r < 0xDC00 ∧ 0xDC00 ≤ r2 ∧ r2 < 0xE000 then
          decodeRune r r2 :: utf16Decode rest2
        else 0xFFFD :: utf16Decode (r2 :: rest2)

/-- Runes produced by decoding a Go string: Unicode scalar values. -/
def ValidRune (r : Nat) : Prop :=
  r < 0xD800 ∨ (0xE000 ≤ r ∧ r ≤ 0x10FFFF)

instance (r : Nat) : Decidable (ValidRune r) := by
  unfold ValidRune
  infer_instance

/-- UTF-16 offset `k` falls strictly inside the surrogate pair encoding
of one code point of the unit list `u`. -/
def splitsSurrogatePair (u : List Nat) (k : Nat) : Prop :=
  0 < k ∧ k < u.length
    ∧ (0xD800 ≤ u.getD (k - 1) 0 ∧ u.getD (k - 1) 0 < 0xDC00)
    ∧ (0xDC00 ≤ u.getD k 0 ∧ u.getD k 0 < 0xE000)

instance (u : List Nat) (k : Nat) : Decidable (splitsSurrogatePair u k) := by
  unfold splitsSurrogatePair
  infer_instance

/-!
Replicated hash table used for the per-fragment text attributes.
-/

/-- Modelled from the spec: one live RHT entry `(value, setAt)`. -/
structure RHTEntry where
  value : String
  updatedAt : Ticket
deriving DecidableEq, Repr

/-- Modelled from the spec: the RHT is a key-value table with
last-writer-wins semantics driven by ticket comparison; its
implementation is not part of the given sources. The table is modelled
as a function from keys to optional entries. -/
structure RHT where
  entries : String → Option RHTEntry

/-- Go `NewRHT`: the empty table. -/
def NewRHT : RHT := ⟨fun _ => none⟩

/-- Modelled from the spec: `set(key, value, ticket)` installs the entry
only if no existing entry for the key has a ticket ordered after the
given ticket; otherwise the call is a no-op. -/
def RHT.Set (r : RHT) (k v : String) (executedAt : Ticket) : RHT :=
  match r.entries k with
  | none => ⟨fun k2 => if k2 = k then some ⟨v, executedAt⟩ else r.entries k2⟩
  | some prev =>
    if prev.updatedAt.After executedAt then r
    else ⟨fun k2 => if k2 = k then some ⟨v, executedAt⟩ else r.entries k2⟩

/-- Modelled from the spec: an independent copy with identical entries.
In this functional model the copy is the table itself. -/
def RHT.DeepCopy (r : RHT) : RHT := r

/-!
TextValue: one text fragment, a rune string plus its attribute table
(crdt/text.go). The Go string is modelled as its list of runes.
-/

structure TextValue where
  value : List Nat
  attrs : RHT

/-- Go `NewTextValue`. -/
def NewTextValue (value : List Nat) (attrs : RHT) : TextValue :=
  ⟨value, attrs⟩

/-- Go `TextValue.Value`. -/
def TextValue.Value (t : TextValue) : List Nat := t.value

/-- Go `TextValue.Len`: the length in UTF-16 code units. -/
def TextValue.Len (t : TextValue) : Nat := (utf16Encode t.value).length

/-- Go `TextValue.Split`: encodes the value to UTF-16 units, keeps the
decoded first `offset` units in the receiver and returns a new value
holding the decoded remaining units with a deep copy of the attributes.
The mutated receiver is returned as the first component. -/
def TextValue.Split (t : TextValue) (offset : Nat) : TextValue × TextValue :=
  let encoded := utf16Encode t.value
  ({ t with value := utf16Decode (encoded.take offset) },
   NewTextValue (utf16Decode (encoded.drop offset)) t.attrs.DeepCopy)

/-- Go `TextValue.DeepCopy`. -/
def TextValue.DeepCopy (t : TextValue) : TextValue :=
  ⟨t.value, t.attrs.DeepCopy⟩

/-!
Splittable replicated sequence (RGA-split) as used by Text. Only the
parts of the structure that crdt/text.go exercises are embedded; parts
whose implementation is not in the given sources are modelled from the
spec and marked as such.
-/

/-- Node identity `(originTicket, offset)`; stable under splitting. -/
structure RGATreeSplitNodeID where
  createdAt : Ticket
  offset : Nat
deriving DecidableEq, Repr

/-- Modelled from the spec: the id of the synthetic initial head node,
built from the zero (initial) ticket. -/
def initialNodeID : RGATreeSplitNodeID := ⟨⟨0, 0, 0⟩, 0⟩

/-- Position `(nodeID, relativeOffset)` inside the sequence. -/
structure RGATreeSplitNodePos where
  id : RGATreeSplitNodeID
  relativeOffset : Nat
deriving DecidableEq, Repr

/-- One sequence node: identity, fragment value, tombstone ticket and
the recorded insertion-predecessor identity. Go prev and next pointers
are represented by the position of the node in the sequence list. -/
structure RGATreeSplitNode where
  id : RGATreeSplitNodeID
  value : TextValue
  removedAt : Option Ticket
  insPrevID : Option RGATreeSplitNodeID

/-- Go `RGATreeSplitNode.createdAt`. -/
def RGATreeSplitNode.createdAt (n : RGATreeSplitNode) : Ticket :=
  n.id.createdAt

/-- Go `RGATreeSplitNode.InsPrevID`. -/
def RGATreeSplitNode.InsPrevID (n : RGATreeSplitNode) : Option RGATreeSplitNodeID :=
  n.insPrevID

/-- Modelled from the spec: splitting a node at a UTF-16 offset keeps
the head content and identity in place and creates a tail node with the
new id `(originTicket, offset + splitOffset)`; tombstone status is
preserved on both halves. The fragment itself is split with
`TextValue.Split`. -/
def RGATreeSplitNode.split (n : RGATreeSplitNode) (offset : Nat) :
    RGATreeSplitNode × RGATreeSplitNode :=
  let parts := n.value.Split offset
  ({ n with value := parts.1 },
   { id := ⟨n.id.createdAt, n.id.offset + offset⟩, value := parts.2,
     removedAt := n.removedAt, insPrevID := some n.id })

/-- Modelled from the spec: the sequence is the list of nodes after the
synthetic initial head, in linked (prev/next) order. The initial head
itself is the fixed `InitialTextNode` and is kept out of the list. -/
structure RGATreeSplit where
  nodes : List RGATreeSplitNode

/-- Modelled from the spec: `findNodeWithSplit` locates the node whose
identity matches the position, splits it when the relative offset falls
strictly inside its content, and returns the updated sequence together
with the identity of the right-hand node at the position (none when the
position is at the very end of the sequence or cannot be located). -/
def splitAtPos :
    List RGATreeSplitNode → RGATreeSplitNodePos →
      List RGATreeSplitNode × Option RGATreeSplitNodeID
  | [], _ => ([], none)
  | n :: rest, pos =>
    if n.id = pos.id then
      if pos.relativeOffset = 0 then (n :: rest, some n.id)
      else if pos.relativeOffset < n.value.Len then
        let pair := n.split pos.relativeOffset
        (pair.1 :: pair.2 :: rest, some pair.2.id)
      else (n :: rest, (rest.head?).map (fun m => m.id))
    else
      let result := splitAtPos rest pos
      (n :: result.1, result.2)

/-- Modelled from the spec: `findBetween(fromRight, toRight)` visits the
nodes from the one with identity `fromId` (inclusive) up to the one with
identity `toId` (exclusive; to the end when `toId` is none). Styling
applies `f` exactly to the visited nodes; `styleFrom` is the phase after
the starting node has been found. -/
def styleFrom (toId : Option RGATreeSplitNodeID)
    (f : RGATreeSplitNode → RGATreeSplitNode) :
    List RGATreeSplitNode → List RGATreeSplitNode
  | [] => []
  | n :: rest =>
    if toId = some n.id then n :: rest
    else f n :: styleFrom toId f rest

/-- Modelled from the spec: the phase before the starting node has been
found; when `fromId` is none there are no nodes to style. -/
def styleBetween (fromId toId : Option RGATreeSplitNodeID)
    (f : RGATreeSplitNode → RGATreeSplitNode) :
    List RGATreeSplitNode → List RGATreeSplitNode
  | [] => []
  | n :: rest =>
    match fromId with
    | none => n :: rest
    | some fid =>
      if n.id = fid then styleFrom toId f (n :: rest)
      else n :: styleBetween fromId toId f rest

/-!
Selection and the rich-text container Text (crdt/text.go).
-/

/-- Modelled from the spec: one per-actor cursor selection
`(from, to, updatedAt)`. -/
structure Selection where
  fromPos : RGATreeSplitNodePos
  toPos : RGATreeSplitNodePos
  updatedAt : Ticket
deriving DecidableEq, Repr

/-- Go `newSelection`. -/
def newSelection (fromPos toPos : RGATreeSplitNodePos) (updatedAt : Ticket) :
    Selection :=
  ⟨fromPos, toPos, updatedAt⟩

/-- Modelled from the spec: the hex rendering of the actor identifier is
an injective key for the selection map; the modelled actor identifier
itself is used as the key. -/
def Ticket.ActorIDHex (t : Ticket) : Nat := t.actorID

/-- Go `Text`: the rich-text element. The Go selection map keyed by the
actor hex string is modelled as a function from actor keys to optional
selections. -/
structure Text where
  rgaTreeSplit : RGATreeSplit
  selectionMap : Nat → Option Selection
  createdAt : Ticket
  movedAt : Option Ticket
  removedAt : Option Ticket

/-- Go `NewText`. -/
def NewText (elements : RGATreeSplit) (createdAt : Ticket) : Text :=
  { rgaTreeSplit := elements
    selectionMap := fun _ => none
    createdAt := createdAt
    movedAt := none
    removedAt := none }

/-- Go `Text.String` loop body: walks the nodes after the initial head,
skips the node whose creation ticket compares equal to the creation
ticket of the Text, appends the value of every node without a tombstone. -/
def textStringLoop (createdAt : Ticket) : List RGATreeSplitNode → List Nat
  | [] => []
  | n :: rest =>
    if n.createdAt.Compare createdAt = Ordering.eq then
      textStringLoop createdAt rest
    else if n.removedAt = none then
      n.value.value ++ textStringLoop createdAt rest
    else textStringLoop createdAt rest

/-- Go `Text.String`: the rendered rune string. -/
def Text.String (t : Text) : List Nat :=
  textStringLoop t.createdAt t.rgaTreeSplit.nodes

/-- Go `Text.Marshal` loop body: identical node selection to
`Text.String`, collecting the fragment values whose per-value JSON
rendering is concatenated by the Go code. -/
def textMarshalLoop (createdAt : Ticket) : List RGATreeSplitNode → List TextValue
  | [] => []
  | n :: rest =>
    if n.createdAt.Compare createdAt = Ordering.eq then
      textMarshalLoop createdAt rest
    else if n.removedAt = none then
      n.value :: textMarshalLoop createdAt rest
    else textMarshalLoop createdAt rest

/-- Go `Text.Marshal`, up to the per-fragment JSON rendering (the
`TextValue.Marshal` string form, whose helpers are not part of the given
sources): the list of marshalled fragments in output order. -/
def Text.Marshal (t : Text) : List TextValue :=
  textMarshalLoop t.createdAt t.rgaTreeSplit.nodes

/-- Go `Text.Nodes`. Modelled from the spec: the internal nodes in
sequence order, excluding the synthetic initial head. -/
def Text.Nodes (t : Text) : List RGATreeSplitNode :=
  t.rgaTreeSplit.nodes

/-- Go `Text.Remove`: tombstones the whole element when the ticket is
present, after the creation ticket and after any prior removal ticket;
otherwise a no-op returning false. The (possibly updated) element is
returned alongside the Go boolean result. -/
def Text.Remove (t : Text) (removedAt : Option Ticket) : Text × Bool :=
  match removedAt with
  | none => (t, false)
  | some r =>
    if r.After t.createdAt
        && (match t.removedAt with
            | none => true
            | some prev => r.After prev) then
      ({ t with removedAt := some r }, true)
    else (t, false)

/-- Go `Text.Select`: installs the selection for the acting actor unless
a stored selection for that actor has a ticket that the executed ticket
is not after. -/
def Text.Select (t : Text) (fromPos toPos : RGATreeSplitNodePos)
    (executedAt : Ticket) : Text :=
  match t.selectionMap executedAt.ActorIDHex with
  | none =>
    { t with selectionMap := fun a =>
        if a = executedAt.ActorIDHex then
          some (newSelection fromPos toPos executedAt)
        else t.selectionMap a }
  | some prev =>
    if executedAt.After prev.updatedAt then
      { t with selectionMap := fun a =>
          if a = executedAt.ActorIDHex then
            some (newSelection fromPos toPos executedAt)
          else t.selectionMap a }
    else t

/-- Application of one attribute write to a node, via the attrs RHT of
its own fragment value (Go `val.attrs.Set(key, value, executedAt)`). -/
def applyAttrs (attributes : List (String × String)) (executedAt : Ticket)
    (n : RGATreeSplitNode) : RGATreeSplitNode :=
  { n with value :=
      { n.value with attrs :=
          (attributes.foldl (fun a kv => a.Set kv.1 kv.2 executedAt)
            n.value.attrs) } }

/-- Association-list model of the Go attribute map passed to Style. -/
abbrev Attributes := List (String × String)

/-- Go `Text.Style`: splits the boundary nodes at `to` and then at
`from`, and applies every attribute to the nodes between the post-split
boundaries. The attribute map is modelled as an association list. -/
def Text.Style (t : Text) (fromPos toPos : RGATreeSplitNodePos)
    (attributes : Attributes) (executedAt : Ticket) : Text :=
  let stepTo := splitAtPos t.rgaTreeSplit.nodes toPos
  let stepFrom := splitAtPos stepTo.1 fromPos
  { t with rgaTreeSplit :=
      ⟨styleBetween stepFrom.2 stepTo.2 (applyAttrs attributes executedAt)
        stepFrom.1⟩ }

/-- Go `Text.DeepCopy` loop: replays the nodes in order into a fresh
sequence; the recorded insertion predecessor of each node must resolve
in the copy built so far (the just-inserted copy of the node included,
and the initial head included). The Go code panics when the predecessor
is missing; the panic is modelled as `none`. -/
def deepCopyNodes (copied : List RGATreeSplitNode) :
    List RGATreeSplitNode → Option (List RGATreeSplitNode)
  | [] => some copied
  | node :: rest =>
    let fresh : RGATreeSplitNode :=
      { id := node.id, value := node.value.DeepCopy
        removedAt := node.removedAt, insPrevID := none }
    match node.InsPrevID with
    | none => deepCopyNodes (copied ++ [fresh]) rest
    | some pid =>
      if pid = initialNodeID ∨ pid = fresh.id
          ∨ copied.any (fun c => decide (c.id = pid)) then
        deepCopyNodes (copied ++ [{ fresh with insPrevID := some pid }]) rest
      else none

/-- Go `Text.DeepCopy`: an independent Text replaying every node,
created with `NewText` over the copied sequence and the same creation
ticket; `none` models the Go panic on a missing insertion predecessor. -/
def Text.DeepCopy (t : Text) : Option Text :=
  match deepCopyNodes [] t.Nodes with
  | some ns => some (NewText ⟨ns⟩ t.createdAt)
  | none => none

end crdt

namespace json

/-- Go `datatype.Element`: a document element addressable by its own
creation ticket. Objects carry their member table (the rottie
`datatype.RHT`, a key-value map, modelled as a function from keys to
optional elements); the other element kinds are opaque for the Set
operation and are represented by their creation ticket only. -/
inductive Element where
  | object (members : String → Option Element) (createdAt : crdt.Ticket)
  | text (createdAt : crdt.Ticket)
  | primitive (createdAt : crdt.Ticket)

/-- Creation ticket of an element: its permanent identity. -/
def Element.createdAt : Element → crdt.Ticket
  | Element.object _ ca => ca
  | Element.text ca => ca
  | Element.primitive ca => ca

/-- Go `json.Object.Set`: delegates the member write for key `k` to the
members RHT of the object, with the creation ticket of the value as the
write ticket. Modelled from the spec: the rottie `datatype.RHT.Set`
itself is not part of the given sources; per the spec the write installs
the value only if no existing entry for the key has a ticket ordered
after the write ticket, and otherwise is a harmless no-op (the
stale-write case). -/
def objectSet (m : String → Option Element) (k : String) (v : Element) :
    String → Option Element :=
  match m k with
  | none => fun k2 => if k2 = k then some v else m k2
  | some prev =>
    if prev.createdAt.After v.createdAt then m
    else fun k2 => if k2 = k then some v else m k2

/-- Modelled from the spec: the document-tree root seen by operation
execution as a lookup-by-identity and element-registration service. -/
structure Root where
  elementMap : crdt.Ticket → Option Element

/-- Go `Root.FindByCreatedAt` (the resolve-by-identity service). -/
def Root.FindByCreatedAt (r : Root) (t : crdt.Ticket) : Option Element :=
  r.elementMap t

/-- Go `Root.RegisterElement`: makes the element addressable by its own
creation ticket. -/
def Root.RegisterElement (r : Root) (e : Element) : Root :=
  ⟨fun tk => if tk = e.createdAt then some e else r.elementMap tk⟩

end json

namespace operation

/-- Go `operation.Set` (document/operation/set.go). -/
structure Set where
  key : String
  value : json.Element
  parentCreatedAt : crdt.Ticket
  executedAt : crdt.Ticket

/-- Go `Set.Execute`: resolves the parent by identity, fails when it is
not an Object, otherwise writes the member through `Object.Set` (the
heap mutation of the shared object is modelled by updating the registry
slot the object was found under) and registers the value element. The
returned pair carries the resulting document state and the error. -/
def Set.Execute (o : Set) (root : json.Root) : json.Root × Option String :=
  match root.FindByCreatedAt o.parentCreatedAt with
  | some (json.Element.object m ca) =>
    let root2 : json.Root :=
      ⟨fun tk =>
        if tk = o.parentCreatedAt then
          some (json.Element.object (json.objectSet m o.key o.value) ca)
        else root.elementMap tk⟩
    (root2.RegisterElement o.value, none)
  | _ => (root, some "fail to execute, only Object can execute Set")

end operation


/-!
Concrete example values used by the claim witnesses and counterexamples.
-/

namespace crdt

/-- Example ticket with the given lamport component. -/
def exTicket (n : Nat) : Ticket := ⟨n, 0, 0⟩

/-- Example position inside the node created at lamport 2. -/
def exPos (off : Nat) : RGATreeSplitNodePos := ⟨⟨exTicket 2, 0⟩, off⟩

/-- Example fragment value "HELLO". -/
def helloValue : TextValue := ⟨[72, 69, 76, 76, 79], NewRHT⟩

/-- Example fragment value holding the single non-BMP code point
U+10000, whose UTF-16 encoding is the surrogate pair D800 DC00. -/
def suppValue : TextValue := ⟨[0x10000], NewRHT⟩

/-- Example live node holding "HELLO". -/
def helloNode : RGATreeSplitNode := ⟨⟨exTicket 2, 0⟩, helloValue, none, none⟩

/-- Example live node holding the single code point U+10000. -/
def suppNode : RGATreeSplitNode := ⟨⟨exTicket 2, 0⟩, suppValue, none, none⟩

/-- Example empty Text created at lamport 1. -/
def exText : Text := NewText ⟨[]⟩ (exTicket 1)

/-- Example Text whose sequence holds the single node "HELLO". -/
def helloText : Text := NewText ⟨[helloNode]⟩ (exTicket 1)

/-- Example Text whose sequence holds the single U+10000 node. -/
def suppText : Text := NewText ⟨[suppNode]⟩ (exTicket 1)

/-- Example Text that already stores a selection for actor 0 recorded at
lamport 100. -/
def exTextSel : Text :=
  { exText with selectionMap := fun a =>
      if a = 0 then some (newSelection (exPos 0) (exPos 3) (exTicket 100))
      else none }

/-- Example Text whose single node records an insertion predecessor that
does not exist anywhere in the sequence. -/
def badPrevText : Text :=
  NewText ⟨[{ helloNode with insPrevID := some ⟨exTicket 99, 0⟩ }]⟩ (exTicket 1)

end crdt

namespace json

/-- Example registry holding one Text element at ticket lamport 7. -/
def exRootText : Root :=
  ⟨fun tk => if tk = crdt.exTicket 7 then some (Element.text (crdt.exTicket 7))
             else none⟩

/-- Example registry holding one empty Object at ticket lamport 7. -/
def exRootObject : Root :=
  ⟨fun tk => if tk = crdt.exTicket 7 then
               some (Element.object (fun _ => none) (crdt.exTicket 7))
             else none⟩

/-- Example primitive element created at lamport 9. -/
def exPrim : Element := Element.primitive (crdt.exTicket 9)

end json

namespace operation

/-- Example Set operation writing key "k" at parent lamport 7. -/
def exSet : Set := ⟨"k", json.exPrim, crdt.exTicket 7, crdt.exTicket 10⟩

end operation

/-!
Helper theorems about the embedded definitions.
-/

namespace crdt

theorem Ticket.compare_eq_gt_iff (t other : Ticket) :
    t.Compare other = Ordering.gt ↔ Ticket.lexLt other t := by
  unfold Ticket.Compare Ticket.lexLt
  split_ifs <;> simp_all <;> omega

theorem Ticket.compare_eq_lt_iff (t other : Ticket) :
    t.Compare other = Ordering.lt ↔ Ticket.lexLt t other := by
  unfold Ticket.Compare Ticket.lexLt
  split_ifs <;> simp_all <;> omega

theorem Ticket.compare_eq_eq_iff (t other : Ticket) :
    t.Compare other = Ordering.eq ↔ t = other := by
  unfold Ticket.Compare
  cases t
  cases other
  split_ifs <;> simp_all <;> omega

theorem Ticket.after_iff (t other : Ticket) :
    t.After other = true ↔ Ticket.lexLt other t := by
  rw [← Ticket.compare_eq_gt_iff]
  unfold Ticket.After
  cases t.Compare other <;> simp <;> rfl

/-- Asymmetry of the strict ticket order. -/
theorem Ticket.after_asymm {a b : Ticket} (h : a.After b = true) :
    b.After a = false := by
  rw [Ticket.after_iff] at h
  cases hba : b.After a with
  | false => rfl
  | true =>
    have h2 := (Ticket.after_iff b a).mp hba
    unfold Ticket.lexLt at h h2
    omega

/-- Transitivity of the strict ticket order. -/
theorem Ticket.after_trans {a b c : Ticket}
    (hab : a.After b = true) (hbc : b.After c = true) : a.After c = true := by
  rw [Ticket.after_iff] at *
  unfold Ticket.lexLt at *
  omega



theorem utf16Decode_nil : utf16Decode [] = [] := rfl

theorem utf16Decode_cons_single (r : Nat) (rest : List Nat)
    (h : r < 0xD800 ∨ 0xE000 ≤ r) :
    utf16Decode (r :: rest) = r :: utf16Decode rest := by
  cases rest <;> · rw [utf16Decode.eq_def]; simp [h]

theorem utf16Decode_lone (r : Nat) (h : ¬(r < 0xD800 ∨ 0xE000 ≤ r)) :
    utf16Decode [r] = [0xFFFD] := by
  rw [utf16Decode.eq_def]
  simp [h]

theorem utf16Decode_cons_pair (r r2 : Nat) (rest2 : List Nat)
    (h : ¬(r < 0xD800 ∨ 0xE000 ≤ r))
    (hp : r < 0xDC00 ∧ 0xDC00 ≤ r2 ∧ r2 < 0xE000) :
    utf16Decode (r :: r2 :: rest2) = decodeRune r r2 :: utf16Decode rest2 := by
  rw [utf16Decode.eq_def]
  simp [h, hp]

theorem utf16Decode_cons_bad (r r2 : Nat) (rest2 : List Nat)
    (h : ¬(r < 0xD800 ∨ 0xE000 ≤ r))
    (hp : ¬(r < 0xDC00 ∧ 0xDC00 ≤ r2 ∧ r2 < 0xE000)) :
    utf16Decode (r :: r2 :: rest2) = 0xFFFD :: utf16Decode (r2 :: rest2) := by
  rw [utf16Decode.eq_def]
  simp only [if_neg h, if_neg hp]



theorem shiftLeft10_or_small (q m : Nat) (hm : m < 1024) :
    (q <<< 10) ||| m = 1024 * q + m := by
  have h1024 : (1024 : Nat) = 2 ^ 10 := by norm_num
  apply Nat.eq_of_testBit_eq
  intro j
  rw [Nat.testBit_lor, Nat.testBit_shiftLeft]
  rw [h1024] at hm ⊢
  rw [Nat.testBit_mul_pow_two_add q hm j]
  by_cases hj : j < 10
  · simp [hj, Nat.not_le_of_lt hj]
  · have hge : 10 ≤ j := Nat.le_of_not_lt hj
    have hmj : m.testBit j = false := by
      apply Nat.testBit_lt_two_pow
      exact Nat.lt_of_lt_of_le hm (Nat.pow_le_pow_right (by norm_num) hge)
    simp [hj, hge, hmj]

theorem encodeRuneUnits_pair (v : Nat) (h1 : 0x10000 ≤ v) (h2 : v ≤ 0x10FFFF) :
    encodeRuneUnits v
      = [0xD800 + (v - 0x10000) / 1024, 0xDC00 + (v - 0x10000) % 1024] := by
  have hd : v - 0x10000 ≤ 0xFFFFF := by omega
  have h3FF : (0x3FF : Nat) = 2 ^ 10 - 1 := by norm_num
  have hsr : (v - 0x10000) >>> 10 = (v - 0x10000) / 1024 := by
    rw [Nat.shiftRight_eq_div_pow]
  have hq : (v - 0x10000) / 1024 < 1024 := by omega
  unfold encodeRuneUnits
  rw [if_neg (by omega), if_pos (by omega)]
  rw [hsr, h3FF, Nat.and_pow_two_sub_one_eq_mod, Nat.and_pow_two_sub_one_eq_mod]
  have hq2 : (v - 0x10000) / 1024 % 2 ^ 10 = (v - 0x10000) / 1024 :=
    Nat.mod_eq_of_lt (by simpa using hq)
  rw [hq2]

theorem decodeRune_encode (v : Nat) (h1 : 0x10000 ≤ v) (h2 : v ≤ 0x10FFFF) :
    decodeRune (0xD800 + (v - 0x10000) / 1024) (0xDC00 + (v - 0x10000) % 1024)
      = v := by
  have hq : (v - 0x10000) / 1024 < 1024 := by omega
  have hm : (v - 0x10000) % 1024 < 1024 := Nat.mod_lt _ (by norm_num)
  unfold decodeRune
  rw [Nat.add_sub_cancel_left, Nat.add_sub_cancel_left]
  rw [shiftLeft10_or_small _ _ hm]
  have := Nat.div_add_mod (v - 0x10000) 1024
  omega

theorem utf16Encode_bound (s : List Nat) : ∀ x ∈ utf16Encode s, x < 0x10000 := by
  induction s with
  | nil => intro x hx; simp [utf16Encode] at hx
  | cons v rest ih =>
    intro x hx
    simp only [utf16Encode, List.mem_append] at hx
    rcases hx with hx | hx
    · unfold encodeRuneUnits at hx
      split_ifs at hx with hc1 hc2
      · simp at hx; omega
      · have hq : ((v - 0x10000) >>> 10) &&& 0x3FF ≤ 0x3FF := Nat.and_le_right
        have hm : (v - 0x10000) &&& 0x3FF ≤ 0x3FF := Nat.and_le_right
        simp at hx
        rcases hx with hx | hx <;> omega
      · simp at hx; omega
    · exact ih x hx

/-- Every rune produced by `utf16Decode` from 16-bit units is a Unicode
scalar value. -/
theorem utf16Decode_valid (u : List Nat) (hu : ∀ x ∈ u, x < 0x10000) :
    ∀ r ∈ utf16Decode u, ValidRune r := by
  induction u using utf16Decode.induct with
  | case1 => intro r hr; simp [utf16Decode_nil] at hr
  | case2 r rest h ih =>
    intro x hx
    rw [utf16Decode_cons_single r rest h] at hx
    rcases List.mem_cons.mp hx with hx | hx
    · have := hu r (by simp)
      subst hx
      unfold ValidRune
      omega
    · exact ih (fun y hy => hu y (by simp [hy])) x hx
  | case3 r h =>
    intro x hx
    rw [utf16Decode_lone r h] at hx
    simp at hx
    subst hx
    unfold ValidRune
    omega
  | case4 r h r2 rest2 hpair ih =>
    intro x hx
    rw [utf16Decode_cons_pair r r2 rest2 h hpair] at hx
    rcases List.mem_cons.mp hx with hx | hx
    · subst hx
      have hm : r2 - 0xDC00 < 1024 := by omega
      unfold decodeRune
      rw [shiftLeft10_or_small _ _ hm]
      unfold ValidRune
      omega
    · exact ih (fun y hy => hu y (by simp [hy])) x hx
  | case5 r h r2 rest2 hpair ih =>
    intro x hx
    rw [utf16Decode_cons_bad r r2 rest2 h hpair] at hx
    rcases List.mem_cons.mp hx with hx | hx
    · subst hx
      unfold ValidRune
      omega
    · exact ih (fun y hy => hu y (by simp [hy])) x hx

/-- Re-encoding a decoded 16-bit unit list preserves its length: every
decode step consumes exactly as many units as its output re-encodes to. -/
theorem utf16Encode_decode_length (u : List Nat) (hu : ∀ x ∈ u, x < 0x10000) :
    (utf16Encode (utf16Decode u)).length = u.length := by
  induction u using utf16Decode.induct with
  | case1 => simp [utf16Decode_nil, utf16Encode]
  | case2 r rest h ih =>
    rw [utf16Decode_cons_single r rest h]
    have hr : r < 0x10000 := hu r (by simp)
    have henc : encodeRuneUnits r = [r] := by
      unfold encodeRuneUnits
      rw [if_pos (by omega)]
    rw [utf16Encode, henc]
    simp only [List.length_append, List.length_cons, List.length_nil]
    rw [ih (fun y hy => hu y (by simp [hy]))]
    omega
  | case3 r h =>
    rw [utf16Decode_lone r h]
    simp [utf16Encode, encodeRuneUnits]
  | case4 r h r2 rest2 hpair ih =>
    rw [utf16Decode_cons_pair r r2 rest2 h hpair]
    have hm : r2 - 0xDC00 < 1024 := by omega
    have hd : decodeRune r r2 = 1024 * (r - 0xD800) + (r2 - 0xDC00) + 0x10000 := by
      unfold decodeRune
      rw [shiftLeft10_or_small _ _ hm]
    have henc : (encodeRuneUnits (decodeRune r r2)).length = 2 := by
      rw [encodeRuneUnits_pair _ (by omega) (by omega)]
      rfl
    rw [utf16Encode]
    simp only [List.length_append, List.length_cons]
    rw [henc, ih (fun y hy => hu y (by simp [hy]))]
    omega
  | case5 r h r2 rest2 hpair ih =>
    rw [utf16Decode_cons_bad r r2 rest2 h hpair]
    have henc : encodeRuneUnits 0xFFFD = [0xFFFD] := by
      unfold encodeRuneUnits
      rw [if_pos (by omega)]
    rw [utf16Encode, henc]
    have := ih (fun y hy => hu y (by simp [hy]))
    simp only [List.length_append, List.length_cons, List.length_nil] at *
    omega

/-- Decoding the encoding of a list of Unicode scalar values gives the
original list back. -/
theorem utf16Decode_encode (s : List Nat) (hs : ∀ r ∈ s, ValidRune r) :
    utf16Decode (utf16Encode s) = s := by
  induction s with
  | nil => simp [utf16Encode, utf16Decode_nil]
  | cons v rest ih =>
    have hv : ValidRune v := hs v (by simp)
    have ihr := ih (fun y hy => hs y (by simp [hy]))
    rw [utf16Encode]
    rcases Nat.lt_or_ge v 0x10000 with hbmp | hsupp
    · have henc : encodeRuneUnits v = [v] := by
        unfold encodeRuneUnits
        unfold ValidRune at hv
        rw [if_pos (by omega)]
      rw [henc]
      simp only [List.cons_append, List.nil_append]
      unfold ValidRune at hv
      rw [utf16Decode_cons_single v _ (by omega), ihr]
    · have hmax : v ≤ 0x10FFFF := by
        unfold ValidRune at hv
        omega
      rw [encodeRuneUnits_pair v hsupp hmax]
      simp only [List.cons_append, List.nil_append]
      have hq : (v - 0x10000) / 1024 < 1024 := by omega
      have hm : (v - 0x10000) % 1024 < 1024 := Nat.mod_lt _ (by norm_num)
      rw [utf16Decode_cons_pair _ _ _ (by omega) (by refine ⟨by omega, by omega, by omega⟩)]
      rw [decodeRune_encode v hsupp hmax, ihr]

theorem splitsSurrogatePair_cons (r : Nat) (rest : List Nat) (k : Nat)
    (h : splitsSurrogatePair rest k) : splitsSurrogatePair (r :: rest) (k + 1) := by
  obtain ⟨hk0, hklen, hhi, hlo⟩ := h
  refine ⟨by omega, by simp; omega, ?_, ?_⟩
  · have he : k + 1 - 1 = (k - 1) + 1 := by omega
    rw [he, List.getD_cons_succ]
    exact hhi
  · rw [List.getD_cons_succ]
    exact hlo

/-- Splitting a 16-bit unit list at an offset that does not fall inside
a surrogate pair commutes with decoding. -/
theorem utf16Decode_split (u : List Nat) :
    ∀ k, ¬ splitsSurrogatePair u k →
      utf16Decode (List.take k u) ++ utf16Decode (List.drop k u)
        = utf16Decode u := by
  induction u using utf16Decode.induct with
  | case1 => intro k _; simp [utf16Decode_nil]
  | case2 r rest h ih =>
    intro k hk
    cases k with
    | zero => simp [utf16Decode_nil]
    | succ k =>
      rw [List.take_succ_cons, List.drop_succ_cons]
      rw [utf16Decode_cons_single r rest h, utf16Decode_cons_single r _ h]
      rw [List.cons_append]
      congr 1
      exact ih k (fun hs => hk (splitsSurrogatePair_cons r rest k hs))
  | case3 r h =>
    intro k hk
    cases k with
    | zero => simp [utf16Decode_nil]
    | succ k =>
      simp only [List.take_succ_cons, List.take_nil, List.drop_succ_cons,
        List.drop_nil]
      rw [utf16Decode_nil]
      simp
  | case4 r h r2 rest2 hpair ih =>
    intro k hk
    cases k with
    | zero => simp [utf16Decode_nil]
    | succ k =>
      cases k with
      | zero =>
        exfalso
        apply hk
        refine ⟨by omega, by simp, ?_, ?_⟩
        · simp only [show (1 : Nat) - 1 = 0 from rfl, List.getD_cons_zero]
          omega
        · simp only [List.getD_cons_succ, List.getD_cons_zero]
          omega
      | succ k =>
        rw [List.take_succ_cons, List.take_succ_cons, List.drop_succ_cons,
          List.drop_succ_cons]
        rw [utf16Decode_cons_pair r r2 _ h hpair,
          utf16Decode_cons_pair r r2 _ h hpair]
        rw [List.cons_append]
        congr 1
        exact ih k (fun hs =>
          hk (splitsSurrogatePair_cons r _ _ (splitsSurrogatePair_cons r2 rest2 k hs)))
  | case5 r h r2 rest2 hpair ih =>
    intro k hk
    cases k with
    | zero => simp [utf16Decode_nil]
    | succ k =>
      cases k with
      | zero =>
        simp only [List.take_succ_cons, List.take_zero, List.drop_succ_cons,
          List.drop_zero]
        rw [utf16Decode_lone r h, utf16Decode_cons_bad r r2 rest2 h hpair]
        rfl
      | succ k =>
        rw [List.take_succ_cons, List.drop_succ_cons]
        rw [utf16Decode_cons_bad r r2 rest2 h hpair]
        rw [List.take_succ_cons]
        rw [utf16Decode_cons_bad r r2 _ h hpair]
        rw [List.cons_append]
        congr 1
        rw [← List.take_succ_cons]
        exact ih (k + 1) (fun hs => hk (splitsSurrogatePair_cons r _ _ hs))


/-- Componentwise equality of Text values, with the selection map
compared pointwise. -/
theorem Text.ext_of {a b : Text} (h1 : a.rgaTreeSplit = b.rgaTreeSplit)
    (h2 : ∀ x, a.selectionMap x = b.selectionMap x)
    (h3 : a.createdAt = b.createdAt) (h4 : a.movedAt = b.movedAt)
    (h5 : a.removedAt = b.removedAt) : a = b := by
  cases a
  cases b
  rw [Text.mk.injEq]
  exact ⟨h1, funext h2, h3, h4, h5⟩

/-- Select either installs the selection for the acting actor or leaves
the Text unchanged. -/
theorem select_cases (t : Text) (f p : RGATreeSplitNodePos) (e : Ticket) :
    t.Select f p e
        = { t with selectionMap := (fun a =>
            if a = e.ActorIDHex then some (newSelection f p e)
            else t.selectionMap a) }
      ∨ t.Select f p e = t := by
  unfold Text.Select
  split
  · left
    rfl
  · split
    · left
      rfl
    · right
      rfl

/-- Select changes no field other than the selection map. -/
theorem select_frame (t : Text) (f p : RGATreeSplitNodePos) (e : Ticket) :
    (t.Select f p e).rgaTreeSplit = t.rgaTreeSplit
    ∧ (t.Select f p e).createdAt = t.createdAt
    ∧ (t.Select f p e).movedAt = t.movedAt
    ∧ (t.Select f p e).removedAt = t.removedAt := by
  rcases select_cases t f p e with h | h <;> rw [h] <;> exact ⟨rfl, rfl, rfl, rfl⟩

/-- Pointwise characterisation of the selection map after a Select. -/
theorem select_map_char (t : Text) (f p : RGATreeSplitNodePos) (e : Ticket)
    (x : Nat) :
    (t.Select f p e).selectionMap x
      = if x = e.ActorIDHex
            ∧ (∀ prev, t.selectionMap e.ActorIDHex = some prev →
                 e.After prev.updatedAt = true)
        then some (newSelection f p e)
        else t.selectionMap x := by
  unfold Text.Select
  split
  next hm =>
    have hcond : ∀ prev, t.selectionMap e.ActorIDHex = some prev →
        e.After prev.updatedAt = true := by
      intro prev h
      rw [hm] at h
      cases h
    show (if x = e.ActorIDHex then some (newSelection f p e)
          else t.selectionMap x) = _
    by_cases hx : x = e.ActorIDHex
    · rw [if_pos hx, if_pos ⟨hx, hcond⟩]
    · rw [if_neg hx, if_neg (fun hc => hx hc.1)]
  next prev hm =>
    by_cases haft : e.After prev.updatedAt = true
    · rw [if_pos haft]
      have hcond : ∀ prev2, t.selectionMap e.ActorIDHex = some prev2 →
          e.After prev2.updatedAt = true := by
        intro prev2 h
        rw [hm] at h
        injection h with h2
        subst h2
        exact haft
      show (if x = e.ActorIDHex then some (newSelection f p e)
            else t.selectionMap x) = _
      by_cases hx : x = e.ActorIDHex
      · rw [if_pos hx, if_pos ⟨hx, hcond⟩]
      · rw [if_neg hx, if_neg (fun hc => hx hc.1)]
    · rw [if_neg haft]
      rw [if_neg (fun hc => haft (hc.2 prev hm))]


/-- Unfolding equation for the String loop at a cons cell. -/
theorem textStringLoop_cons (c : Ticket) (n : RGATreeSplitNode)
    (rest : List RGATreeSplitNode) :
    textStringLoop c (n :: rest)
      = (if n.createdAt.Compare c = Ordering.eq then textStringLoop c rest
         else if n.removedAt = none then
           n.value.value ++ textStringLoop c rest
         else textStringLoop c rest) := rfl

/-- The String loop depends only on the value, tombstone and origin
ticket of each node. -/
theorem textStringLoop_congr (c : Ticket) :
    ∀ (ns1 ns2 : List RGATreeSplitNode),
      ns1.map (fun n => (n.value.value, n.removedAt, n.id.createdAt))
        = ns2.map (fun n => (n.value.value, n.removedAt, n.id.createdAt)) →
      textStringLoop c ns1 = textStringLoop c ns2
  | [], [], _ => rfl
  | [], _ :: _, h => by simp at h
  | _ :: _, [], h => by simp at h
  | n1 :: r1, n2 :: r2, h => by
    simp only [List.map_cons, List.cons.injEq, Prod.mk.injEq] at h
    obtain ⟨⟨hval, hrem, hcre⟩, hrest⟩ := h
    have hc12 : n1.createdAt = n2.createdAt := hcre
    rw [textStringLoop_cons, textStringLoop_cons, hc12, hval, hrem,
      textStringLoop_congr c r1 r2 hrest]

/-- The styling phase after the starting node preserves the per-node
view (value, tombstone, origin ticket) when the applied function does. -/
theorem styleFrom_view (tid : Option RGATreeSplitNodeID)
    (f : RGATreeSplitNode → RGATreeSplitNode)
    (hf : ∀ n, (f n).value.value = n.value.value
        ∧ (f n).removedAt = n.removedAt ∧ (f n).id = n.id) :
    ∀ ns : List RGATreeSplitNode,
      (styleFrom tid f ns).map
          (fun n => (n.value.value, n.removedAt, n.id.createdAt))
        = ns.map (fun n => (n.value.value, n.removedAt, n.id.createdAt))
  | [] => rfl
  | n :: rest => by
    unfold styleFrom
    by_cases ht : tid = some n.id
    · rw [if_pos ht]
    · rw [if_neg ht]
      simp only [List.map_cons, List.cons.injEq, Prod.mk.injEq]
      obtain ⟨h1, h2, h3⟩ := hf n
      exact ⟨⟨h1, h2, by rw [h3]⟩, styleFrom_view tid f hf rest⟩

/-- The full styling pass preserves the per-node view when the applied
function does. -/
theorem styleBetween_view (fid tid : Option RGATreeSplitNodeID)
    (f : RGATreeSplitNode → RGATreeSplitNode)
    (hf : ∀ n, (f n).value.value = n.value.value
        ∧ (f n).removedAt = n.removedAt ∧ (f n).id = n.id) :
    ∀ ns : List RGATreeSplitNode,
      (styleBetween fid tid f ns).map
          (fun n => (n.value.value, n.removedAt, n.id.createdAt))
        = ns.map (fun n => (n.value.value, n.removedAt, n.id.createdAt))
  | [] => rfl
  | n :: rest => by
    unfold styleBetween
    cases fid with
    | none => rfl
    | some fidv =>
      show (if n.id = fidv then styleFrom tid f (n :: rest)
            else n :: styleBetween (some fidv) tid f rest).map
          (fun n => (n.value.value, n.removedAt, n.id.createdAt))
        = (n :: rest).map (fun n => (n.value.value, n.removedAt, n.id.createdAt))
      by_cases hh : n.id = fidv
      · rw [if_pos hh]
        exact styleFrom_view tid f hf (n :: rest)
      · rw [if_neg hh]
        simp only [List.map_cons, List.cons.injEq]
        exact ⟨trivial, styleBetween_view (some fidv) tid f hf rest⟩

/-- Splitting a boundary node at a valid position does not change the
rendered text: the loop result over the post-split node list equals the
loop result over the original list. -/
theorem textStringLoop_splitAtPos (c : Ticket) (pos : RGATreeSplitNodePos) :
    ∀ ns : List RGATreeSplitNode,
      (∀ n ∈ ns, ∀ r ∈ n.value.value, ValidRune r) →
      (∀ n ∈ ns, n.id = pos.id →
        ¬ splitsSurrogatePair (utf16Encode n.value.value) pos.relativeOffset) →
      textStringLoop c (splitAtPos ns pos).1 = textStringLoop c ns
  | [] => fun _ _ => rfl
  | n :: rest => by
    intro hv hb
    unfold splitAtPos
    by_cases hid : n.id = pos.id
    · rw [if_pos hid]
      by_cases h0 : pos.relativeOffset = 0
      · rw [if_pos h0]
      · rw [if_neg h0]
        by_cases hlen : pos.relativeOffset < n.value.Len
        · rw [if_pos hlen]
          have hval : (n.split pos.relativeOffset).1.value.value
              ++ (n.split pos.relativeOffset).2.value.value = n.value.value := by
            show utf16Decode ((utf16Encode n.value.value).take pos.relativeOffset)
                ++ utf16Decode ((utf16Encode n.value.value).drop pos.relativeOffset)
                = n.value.value
            rw [utf16Decode_split _ _ (hb n (by simp) hid)]
            exact utf16Decode_encode _ (hv n (by simp))
          show textStringLoop c
              ((n.split pos.relativeOffset).1
                :: (n.split pos.relativeOffset).2 :: rest)
              = textStringLoop c (n :: rest)
          rw [textStringLoop_cons, textStringLoop_cons, textStringLoop_cons]
          rw [show (n.split pos.relativeOffset).1.createdAt = n.createdAt from rfl]
          rw [show (n.split pos.relativeOffset).2.createdAt = n.createdAt from rfl]
          rw [show (n.split pos.relativeOffset).1.removedAt = n.removedAt from rfl]
          rw [show (n.split pos.relativeOffset).2.removedAt = n.removedAt from rfl]
          by_cases hc : n.createdAt.Compare c = Ordering.eq
          · rw [if_pos hc, if_pos hc, if_pos hc]
          · rw [if_neg hc, if_neg hc, if_neg hc]
            cases hrem : n.removedAt with
            | none =>
              rw [if_pos rfl, if_pos rfl, if_pos rfl]
              rw [← List.append_assoc, hval]
            | some r =>
              rw [if_neg (by simp), if_neg (by simp), if_neg (by simp)]
        · rw [if_neg hlen]
    · rw [if_neg hid]
      have ihr := textStringLoop_splitAtPos c pos rest
        (fun m hm => hv m (by simp [hm])) (fun m hm => hb m (by simp [hm]))
      show textStringLoop c (n :: (splitAtPos rest pos).1)
          = textStringLoop c (n :: rest)
      rw [textStringLoop_cons, textStringLoop_cons, ihr]

/-- Splitting preserves rune validity of every node value. -/
theorem splitAtPos_valid (pos : RGATreeSplitNodePos) :
    ∀ ns : List RGATreeSplitNode,
      (∀ n ∈ ns, ∀ r ∈ n.value.value, ValidRune r) →
      ∀ n2 ∈ (splitAtPos ns pos).1, ∀ r ∈ n2.value.value, ValidRune r
  | [] => fun hv => hv
  | n :: rest => by
    intro hv m hm
    have hvn : ∀ r ∈ n.value.value, ValidRune r := hv n (by simp)
    have hvrest : ∀ n2 ∈ rest, ∀ r ∈ n2.value.value, ValidRune r :=
      fun n2 h2 => hv n2 (by simp [h2])
    unfold splitAtPos at hm
    by_cases hid : n.id = pos.id
    · rw [if_pos hid] at hm
      by_cases h0 : pos.relativeOffset = 0
      · rw [if_pos h0] at hm
        exact hv m hm
      · rw [if_neg h0] at hm
        by_cases hlen : pos.relativeOffset < n.value.Len
        · rw [if_pos hlen] at hm
          have hm2 : m = (n.split pos.relativeOffset).1
              ∨ m = (n.split pos.relativeOffset).2 ∨ m ∈ rest := by
            simpa using hm
          have hdec : ∀ u : List Nat, (∀ x ∈ u, x < 0x10000) →
              ∀ r ∈ utf16Decode u, ValidRune r := utf16Decode_valid
          have hbound := utf16Encode_bound n.value.value
          rcases hm2 with hm2 | hm2 | hm2
          · subst hm2
            intro r hr
            exact hdec _ (fun x hx => hbound x (List.mem_of_mem_take hx)) r hr
          · subst hm2
            intro r hr
            exact hdec _ (fun x hx => hbound x (List.mem_of_mem_drop hx)) r hr
          · exact hvrest m hm2
        · rw [if_neg hlen] at hm
          exact hv m hm
    · rw [if_neg hid] at hm
      have hm2 : m = n ∨ m ∈ (splitAtPos rest pos).1 := by simpa using hm
      rcases hm2 with hm2 | hm2
      · subst hm2
        exact hvn
      · exact splitAtPos_valid pos rest hvrest m hm2

/-- Every node after a split carries the tombstone and origin ticket of
a node of the original list. -/
theorem splitAtPos_provenance (pos : RGATreeSplitNodePos) :
    ∀ ns : List RGATreeSplitNode, ∀ m ∈ (splitAtPos ns pos).1,
      ∃ n1 ∈ ns, m.removedAt = n1.removedAt
        ∧ m.id.createdAt = n1.id.createdAt
  | [] => fun m hm => by cases hm
  | n :: rest => by
    intro m hm
    unfold splitAtPos at hm
    by_cases hid : n.id = pos.id
    · rw [if_pos hid] at hm
      by_cases h0 : pos.relativeOffset = 0
      · rw [if_pos h0] at hm
        exact ⟨m, hm, rfl, rfl⟩
      · rw [if_neg h0] at hm
        by_cases hlen : pos.relativeOffset < n.value.Len
        · rw [if_pos hlen] at hm
          have hm2 : m = (n.split pos.relativeOffset).1
              ∨ m = (n.split pos.relativeOffset).2 ∨ m ∈ rest := by
            simpa using hm
          rcases hm2 with hm2 | hm2 | hm2
          · subst hm2
            exact ⟨n, by simp, rfl, rfl⟩
          · subst hm2
            exact ⟨n, by simp, rfl, rfl⟩
          · exact ⟨m, by simp [hm2], rfl, rfl⟩
        · rw [if_neg hlen] at hm
          exact ⟨m, hm, rfl, rfl⟩
    · rw [if_neg hid] at hm
      have hm2 : m = n ∨ m ∈ (splitAtPos rest pos).1 := by simpa using hm
      rcases hm2 with hm2 | hm2
      · exact ⟨n, by simp, by rw [hm2], by rw [hm2]⟩
      · obtain ⟨n1, hn1, h1, h2⟩ := splitAtPos_provenance pos rest m hm2
        exact ⟨n1, by simp [hn1], h1, h2⟩

/-- Every node surviving the styling phase is a node of the input list
or the image of one under the styling function. -/
theorem styleFrom_provenance (tid : Option RGATreeSplitNodeID)
    (f : RGATreeSplitNode → RGATreeSplitNode) :
    ∀ ns : List RGATreeSplitNode, ∀ m ∈ styleFrom tid f ns,
      m ∈ ns ∨ ∃ n1 ∈ ns, m = f n1
  | [] => fun m hm => by cases hm
  | n :: rest => by
    intro m hm
    unfold styleFrom at hm
    by_cases ht : tid = some n.id
    · rw [if_pos ht] at hm
      exact Or.inl hm
    · rw [if_neg ht] at hm
      have hm2 : m = f n ∨ m ∈ styleFrom tid f rest := by simpa using hm
      rcases hm2 with hm2 | hm2
      · exact Or.inr ⟨n, by simp, hm2⟩
      · rcases styleFrom_provenance tid f rest m hm2 with h | ⟨n1, hn1, he⟩
        · exact Or.inl (by simp [h])
        · exact Or.inr ⟨n1, by simp [hn1], he⟩

/-- Same provenance statement for the full styling pass. -/
theorem styleBetween_provenance (fid tid : Option RGATreeSplitNodeID)
    (f : RGATreeSplitNode → RGATreeSplitNode) :
    ∀ ns : List RGATreeSplitNode, ∀ m ∈ styleBetween fid tid f ns,
      m ∈ ns ∨ ∃ n1 ∈ ns, m = f n1
  | [] => fun m hm => by cases hm
  | n :: rest => by
    intro m hm
    unfold styleBetween at hm
    cases fid with
    | none => exact Or.inl hm
    | some fidv =>
      have hm0 : m ∈ (if n.id = fidv then styleFrom tid f (n :: rest)
          else n :: styleBetween (some fidv) tid f rest) := hm
      by_cases hh : n.id = fidv
      · rw [if_pos hh] at hm0
        exact styleFrom_provenance tid f (n :: rest) m hm0
      · rw [if_neg hh] at hm0
        have hm2 : m = n ∨ m ∈ styleBetween (some fidv) tid f rest := by
          simpa using hm0
        rcases hm2 with hm2 | hm2
        · exact Or.inl (by simp [hm2])
        · rcases styleBetween_provenance (some fidv) tid f rest m hm2 with
            h | ⟨n1, hn1, he⟩
          · exact Or.inl (by simp [h])
          · exact Or.inr ⟨n1, by simp [hn1], he⟩

/-- Select installs the selection when no stored selection for the actor
has a ticket that the executed ticket is not after. -/
theorem select_install (t : Text) (f p : RGATreeSplitNodePos) (e : Ticket)
    (hc : ∀ prev, t.selectionMap e.ActorIDHex = some prev →
        e.After prev.updatedAt = true) :
    t.Select f p e
      = { t with selectionMap := (fun a =>
          if a = e.ActorIDHex then some (newSelection f p e)
          else t.selectionMap a) } := by
  unfold Text.Select
  split
  next hm => rfl
  next prev hm => rw [if_pos (hc prev hm)]

/-- Select is a no-op when the stored selection for the actor has a
ticket that the executed ticket is not after. -/
theorem select_noop (t : Text) (f p : RGATreeSplitNodePos) (e : Ticket)
    (prev : Selection) (hm : t.selectionMap e.ActorIDHex = some prev)
    (hn : e.After prev.updatedAt = false) :
    t.Select f p e = t := by
  unfold Text.Select
  split
  next hm2 =>
    rw [hm] at hm2
    cases hm2
  next prev2 hm2 =>
    rw [hm] at hm2
    injection hm2 with h2
    subst h2
    rw [if_neg (by simp [hn])]

/-- The rendering loop of `Text.String` collects, in order, exactly the
values of the nodes that are neither the final placeholder (creation
ticket comparing equal to the container ticket) nor tombstoned. -/
theorem textStringLoop_eq_filter (c : Ticket) (ns : List RGATreeSplitNode) :
    textStringLoop c ns
      = ((ns.filter (fun n => !(n.createdAt.Compare c == Ordering.eq)
            && n.removedAt.isNone)).map (fun n => n.value.value)).flatten := by
  induction ns with
  | nil => rfl
  | cons n rest ih =>
    unfold textStringLoop
    by_cases h1 : n.createdAt.Compare c = Ordering.eq
    · rw [if_pos h1, ih, List.filter_cons_of_neg (by
        rw [h1]
        intro h
        exact absurd (Bool.and_eq_true_iff.mp h).1 (by decide))]

    · have hbeq : (n.createdAt.Compare c == Ordering.eq) = false := by
        cases hc : n.createdAt.Compare c <;> simp_all <;> rfl
      rw [if_neg h1]
      cases hrem : n.removedAt with
      | none =>
        rw [if_pos rfl, ih, List.filter_cons_of_pos (by simp [hbeq, hrem]),
          List.map_cons, List.flatten_cons]
      | some r =>
        rw [if_neg (by simp), ih,
          List.filter_cons_of_neg (by simp [hbeq, hrem])]

/-- The rendering loop of `Text.Marshal` keeps exactly the same nodes as
the `Text.String` loop. -/
theorem textMarshalLoop_eq_filter (c : Ticket) (ns : List RGATreeSplitNode) :
    textMarshalLoop c ns
      = (ns.filter (fun n => !(n.createdAt.Compare c == Ordering.eq)
            && n.removedAt.isNone)).map (fun n => n.value) := by
  induction ns with
  | nil => rfl
  | cons n rest ih =>
    unfold textMarshalLoop
    by_cases h1 : n.createdAt.Compare c = Ordering.eq
    · rw [if_pos h1, ih, List.filter_cons_of_neg (by
        rw [h1]
        intro h
        exact absurd (Bool.and_eq_true_iff.mp h).1 (by decide))]

    · have hbeq : (n.createdAt.Compare c == Ordering.eq) = false := by
        cases hc : n.createdAt.Compare c <;> simp_all <;> rfl
      rw [if_neg h1]
      cases hrem : n.removedAt with
      | none =>
        rw [if_pos rfl, ih, List.filter_cons_of_pos (by simp [hbeq, hrem]),
          List.map_cons]
      | some r =>
        rw [if_neg (by simp), ih,
          List.filter_cons_of_neg (by simp [hbeq, hrem])]

end crdt

/-!
Claim theorems.
-/

open crdt

/-- C10: `Text.Remove` with an absent (nil) removal ticket is total — it
returns false and leaves the Text entirely unchanged; the nil branch of
the condition short-circuits before any comparison on the absent ticket. -/
theorem C10_remove_nil_is_total_noop (t : Text) :
    t.Remove none = (t, false) := rfl

/-- C2: `Text.Remove (some r)` succeeds (returns true and records `r` as
the removal ticket) exactly when `r` is after the creation ticket and
after any previously recorded removal ticket; in every other case it
returns false and leaves the Text unchanged. Consequently removing at
`t1` and then at an earlier `t0` leaves the removal ticket at `t1`, and
removing with a ticket before the creation ticket is a failing no-op. -/
theorem C2_remove_monotonic (t : Text) (r t0 t1 : Ticket) :
    ((t.Remove (some r)).2 = true ↔
      (r.After t.createdAt = true
        ∧ ∀ prev, t.removedAt = some prev → r.After prev = true))
    ∧ ((t.Remove (some r)).2 = true →
        (t.Remove (some r)).1 = { t with removedAt := some r })
    ∧ ((t.Remove (some r)).2 = false → (t.Remove (some r)).1 = t)
    ∧ (t0.Compare t1 = Ordering.lt → t1.After t.createdAt = true →
        t.removedAt = none →
        (((t.Remove (some t1)).1.Remove (some t0)).1).removedAt = some t1)
    ∧ (r.Compare t.createdAt = Ordering.lt → t.Remove (some r) = (t, false)) := by
  have hchar : ∀ (u : Text) (s : Ticket),
      u.Remove (some s)
        = (if s.After u.createdAt
              && (match u.removedAt with
                  | none => true
                  | some prev => s.After prev) then
             ({ u with removedAt := some s }, true)
           else (u, false)) := by
    intro u s
    rfl
  refine ⟨?_, ?_, ?_, ?_, ?_⟩
  · rw [hchar]
    constructor
    · intro h
      by_cases hc : (r.After t.createdAt
          && (match t.removedAt with
              | none => true
              | some prev => r.After prev)) = true
      · rcases Bool.and_eq_true_iff.mp hc with ⟨h1, h2⟩
        refine ⟨h1, ?_⟩
        intro prev hprev
        rw [hprev] at h2
        exact h2
      · rw [if_neg hc] at h
        simp at h
    · intro ⟨h1, h2⟩
      have hc : (r.After t.createdAt
          && (match t.removedAt with
              | none => true
              | some prev => r.After prev)) = true := by
        rw [Bool.and_eq_true_iff]
        refine ⟨h1, ?_⟩
        cases ht : t.removedAt with
        | none => rfl
        | some prev => exact h2 prev ht
      rw [if_pos hc]
  · rw [hchar]
    intro h
    by_cases hc : (r.After t.createdAt
        && (match t.removedAt with
            | none => true
            | some prev => r.After prev)) = true
    · rw [if_pos hc]
    · rw [if_neg hc] at h ⊢
      simp at h
  · rw [hchar]
    intro h
    by_cases hc : (r.After t.createdAt
        && (match t.removedAt with
            | none => true
            | some prev => r.After prev)) = true
    · rw [if_pos hc] at h
      simp at h
    · rw [if_neg hc]
  · intro hlt hafter hnone
    have h01 : t0.After t1 = false := by
      unfold Ticket.After
      rw [hlt]
      rfl
    have hc1 : (t1.After t.createdAt
        && (match t.removedAt with
            | none => true
            | some prev => t1.After prev)) = true := by
      rw [hnone, hafter]
      rfl
    have hstep1 : t.Remove (some t1) = ({ t with removedAt := some t1 }, true) := by
      rw [hchar, if_pos hc1]
    rw [hstep1, hchar]
    have hc2 : (t0.After ({ t with removedAt := some t1 } : Text).createdAt
        && (match ({ t with removedAt := some t1 } : Text).removedAt with
            | none => true
            | some prev => t0.After prev)) = false := by
      show (t0.After t.createdAt && t0.After t1) = false
      rw [h01, Bool.and_false]
    rw [if_neg (by simp [hc2])]
  · intro hlt
    have hra : r.After t.createdAt = false := by
      unfold Ticket.After
      rw [hlt]
      rfl
    rw [hchar]
    rw [hra]
    rfl

/-- C2 witness: on the empty example Text created at lamport 1, removing
at lamport 3 and then at lamport 2 leaves the removal ticket at lamport 3. -/
theorem C2_remove_monotonic_witness :
    (((exText.Remove (some (exTicket 3))).1.Remove (some (exTicket 2))).1).removedAt
      = some (exTicket 3) :=
  (C2_remove_monotonic exText (exTicket 0) (exTicket 2) (exTicket 3)).2.2.2.1
    (by decide) (by decide) rfl

/-- C9: a Select for an actor with no stored selection always installs
the given selection, regardless of how old its ticket is; and when the
executed ticket compares equal to the stored ticket for that actor (a
tie, not strictly after), the Text is left unchanged. -/
theorem C9_select_first_write_install_and_tie_noop (t : Text)
    (fromPos toPos : RGATreeSplitNodePos) (executedAt : Ticket) :
    (t.selectionMap executedAt.ActorIDHex = none →
      t.Select fromPos toPos executedAt
        = { t with selectionMap := (fun a =>
            if a = executedAt.ActorIDHex then
              some (newSelection fromPos toPos executedAt)
            else t.selectionMap a) })
    ∧ (∀ prev, t.selectionMap executedAt.ActorIDHex = some prev →
        executedAt.Compare prev.updatedAt = Ordering.eq →
        t.Select fromPos toPos executedAt = t) := by
  constructor
  · intro hnone
    unfold Text.Select
    rw [hnone]
  · intro prev hprev htie
    have hafter : executedAt.After prev.updatedAt = false := by
      unfold Ticket.After
      rw [htie]
      rfl
    simp [Text.Select, hprev, hafter]

/-- C9 witness: on the example Text storing a selection for actor 0 at
lamport 100, a Select whose ticket equals lamport 100 is a no-op. -/
theorem C9_select_witness :
    exTextSel.Select (exPos 1) (exPos 2) (exTicket 100) = exTextSel :=
  (C9_select_first_write_install_and_tie_noop exTextSel (exPos 1) (exPos 2)
      (exTicket 100)).2
    (newSelection (exPos 0) (exPos 3) (exTicket 100)) rfl (by decide)

/-- C3 counterexample: on a Text already storing a selection for actor 0
recorded at lamport 100, two Select calls of actor 0 at lamports 2 and
then 3 do not leave the lamport-3 selection as the recorded one — the
stored newer selection wins, contradicting the claim as stated. -/
theorem C3_select_lww_counterexample :
    ((exTextSel.Select (exPos 0) (exPos 3) (exTicket 2)).Select (exPos 1) (exPos 2)
        (exTicket 3)).selectionMap ((exTicket 3).ActorIDHex)
      ≠ some (newSelection (exPos 1) (exPos 2) (exTicket 3)) := by
  decide

/-- C3 as amended: for two Select calls of the same actor with the
second ticket after the first, the two application orders yield the same
final Text; when additionally every stored selection for that actor has
a ticket the second ticket is after, the final recorded selection is the
one executed at the second ticket; and any Select whose ticket is not
after the stored ticket for its actor leaves the Text unchanged. -/
theorem C3_select_lww_corrected (t : Text) (f1 p1 f2 p2 : RGATreeSplitNodePos)
    (e1 e2 : Ticket) (hactor : e1.ActorIDHex = e2.ActorIDHex)
    (hafter : e2.After e1 = true) :
    ((t.Select f1 p1 e1).Select f2 p2 e2 = (t.Select f2 p2 e2).Select f1 p1 e1)
    ∧ ((∀ prev, t.selectionMap e2.ActorIDHex = some prev →
          e2.After prev.updatedAt = true) →
        ((t.Select f1 p1 e1).Select f2 p2 e2).selectionMap e2.ActorIDHex
          = some (newSelection f2 p2 e2))
    ∧ (∀ (u : Text) (f3 p3 : RGATreeSplitNodePos) (e : Ticket) (prev : Selection),
        u.selectionMap e.ActorIDHex = some prev →
        e.After prev.updatedAt = false → u.Select f3 p3 e = u) := by
  have hasym : e1.After e2 = false := Ticket.after_asymm hafter
  refine ⟨?_, ?_, fun u f3 p3 e prev hm hn => select_noop u f3 p3 e prev hm hn⟩
  · rcases hm : t.selectionMap e2.ActorIDHex with _ | prev
    · -- no stored selection for the actor
      have hC1 : ∀ prev, t.selectionMap e1.ActorIDHex = some prev →
          e1.After prev.updatedAt = true := by
        intro prev h
        rw [hactor, hm] at h
        cases h
      have hs1 : t.Select f1 p1 e1
          = { t with selectionMap := (fun a =>
              if a = e1.ActorIDHex then some (newSelection f1 p1 e1)
              else t.selectionMap a) } := select_install t f1 p1 e1 hC1
      have hC2 : ∀ prev, t.selectionMap e2.ActorIDHex = some prev →
          e2.After prev.updatedAt = true := by
        intro prev h
        rw [hm] at h
        cases h
      have hs2 : t.Select f2 p2 e2
          = { t with selectionMap := (fun a =>
              if a = e2.ActorIDHex then some (newSelection f2 p2 e2)
              else t.selectionMap a) } := select_install t f2 p2 e2 hC2
      have hC2b : ∀ prev,
          (t.Select f1 p1 e1).selectionMap e2.ActorIDHex = some prev →
          e2.After prev.updatedAt = true := by
        intro prev h
        rw [hs1] at h
        show e2.After prev.updatedAt = true
        have : (if e2.ActorIDHex = e1.ActorIDHex
            then some (newSelection f1 p1 e1)
            else t.selectionMap e2.ActorIDHex) = some prev := h
        rw [if_pos hactor.symm] at this
        injection this with h2
        subst h2
        exact hafter
      have hs12 : (t.Select f1 p1 e1).Select f2 p2 e2
          = { (t.Select f1 p1 e1) with selectionMap := (fun a =>
              if a = e2.ActorIDHex then some (newSelection f2 p2 e2)
              else (t.Select f1 p1 e1).selectionMap a) } :=
        select_install _ f2 p2 e2 hC2b
      have hn21 : (t.Select f2 p2 e2).Select f1 p1 e1 = t.Select f2 p2 e2 := by
        apply select_noop _ f1 p1 e1 (newSelection f2 p2 e2)
        · rw [hs2]
          show (if e1.ActorIDHex = e2.ActorIDHex
              then some (newSelection f2 p2 e2)
              else t.selectionMap e1.ActorIDHex) = _
          rw [if_pos hactor]
        · exact hasym
      rw [hs12, hn21, hs2]
      apply Text.ext_of
      · rw [hs1]
      · intro x
        rw [hs1]
        show (if x = e2.ActorIDHex then some (newSelection f2 p2 e2)
              else if x = e1.ActorIDHex then some (newSelection f1 p1 e1)
              else t.selectionMap x)
            = (if x = e2.ActorIDHex then some (newSelection f2 p2 e2)
               else t.selectionMap x)
        rw [hactor]
        by_cases hx : x = e2.ActorIDHex
        · rw [if_pos hx, if_pos hx]
        · rw [if_neg hx, if_neg hx, if_neg hx]
      · rw [hs1]
      · rw [hs1]
      · rw [hs1]
    · -- a stored selection exists
      have hm1 : t.selectionMap e1.ActorIDHex = some prev := by
        rw [hactor]
        exact hm
      rcases h2p : e2.After prev.updatedAt with _ | _
      · -- the second ticket is not after the stored one: both are no-ops
        have h1p : e1.After prev.updatedAt = false := by
          cases h1p : e1.After prev.updatedAt with
          | false => rfl
          | true =>
            have := Ticket.after_trans hafter h1p
            rw [h2p] at this
            cases this
        have hn1 : t.Select f1 p1 e1 = t := select_noop t f1 p1 e1 prev hm1 h1p
        have hn2 : t.Select f2 p2 e2 = t := select_noop t f2 p2 e2 prev hm h2p
        rw [hn1, hn2, hn1]
      · -- the second ticket is after the stored one
        have hC2 : ∀ prev2, t.selectionMap e2.ActorIDHex = some prev2 →
            e2.After prev2.updatedAt = true := by
          intro prev2 h
          rw [hm] at h
          injection h with h2
          subst h2
          exact h2p
        have hs2 : t.Select f2 p2 e2
            = { t with selectionMap := (fun a =>
                if a = e2.ActorIDHex then some (newSelection f2 p2 e2)
                else t.selectionMap a) } := select_install t f2 p2 e2 hC2
        have hn21 : (t.Select f2 p2 e2).Select f1 p1 e1 = t.Select f2 p2 e2 := by
          apply select_noop _ f1 p1 e1 (newSelection f2 p2 e2)
          · rw [hs2]
            show (if e1.ActorIDHex = e2.ActorIDHex
                then some (newSelection f2 p2 e2)
                else t.selectionMap e1.ActorIDHex) = _
            rw [if_pos hactor]
          · exact hasym
        rcases h1p : e1.After prev.updatedAt with _ | _
        · -- the first Select is a no-op
          have hn1 : t.Select f1 p1 e1 = t := select_noop t f1 p1 e1 prev hm1 h1p
          rw [hn1, hn21]
        · -- both Selects install; the second order drops the first write
          have hC1 : ∀ prev2, t.selectionMap e1.ActorIDHex = some prev2 →
              e1.After prev2.updatedAt = true := by
            intro prev2 h
            rw [hm1] at h
            injection h with h2
            subst h2
            exact h1p
          have hs1 : t.Select f1 p1 e1
              = { t with selectionMap := (fun a =>
                  if a = e1.ActorIDHex then some (newSelection f1 p1 e1)
                  else t.selectionMap a) } := select_install t f1 p1 e1 hC1
          have hC2b : ∀ prev2,
              (t.Select f1 p1 e1).selectionMap e2.ActorIDHex = some prev2 →
              e2.After prev2.updatedAt = true := by
            intro prev2 h
            rw [hs1] at h
            have : (if e2.ActorIDHex = e1.ActorIDHex
                then some (newSelection f1 p1 e1)
                else t.selectionMap e2.ActorIDHex) = some prev2 := h
            rw [if_pos hactor.symm] at this
            injection this with h2
            subst h2
            exact hafter
          have hs12 : (t.Select f1 p1 e1).Select f2 p2 e2
              = { (t.Select f1 p1 e1) with selectionMap := (fun a =>
                  if a = e2.ActorIDHex then some (newSelection f2 p2 e2)
                  else (t.Select f1 p1 e1).selectionMap a) } :=
            select_install _ f2 p2 e2 hC2b
          rw [hs12, hn21, hs2]
          apply Text.ext_of
          · rw [hs1]
          · intro x
            rw [hs1]
            show (if x = e2.ActorIDHex then some (newSelection f2 p2 e2)
                  else if x = e1.ActorIDHex then some (newSelection f1 p1 e1)
                  else t.selectionMap x)
                = (if x = e2.ActorIDHex then some (newSelection f2 p2 e2)
                   else t.selectionMap x)
            rw [hactor]
            by_cases hx : x = e2.ActorIDHex
            · rw [if_pos hx, if_pos hx]
            · rw [if_neg hx, if_neg hx, if_neg hx]
          · rw [hs1]
          · rw [hs1]
          · rw [hs1]
  · intro hcond
    have hC2b : ∀ prev,
        (t.Select f1 p1 e1).selectionMap e2.ActorIDHex = some prev →
        e2.After prev.updatedAt = true := by
      intro prev h
      rcases select_cases t f1 p1 e1 with hs | hs
      · rw [hs] at h
        have h2 : (if e2.ActorIDHex = e1.ActorIDHex
            then some (newSelection f1 p1 e1)
            else t.selectionMap e2.ActorIDHex) = some prev := h
        rw [if_pos hactor.symm] at h2
        injection h2 with h3
        subst h3
        exact hafter
      · rw [hs] at h
        exact hcond prev h
    have hs12 : (t.Select f1 p1 e1).Select f2 p2 e2
        = { (t.Select f1 p1 e1) with selectionMap := (fun a =>
            if a = e2.ActorIDHex then some (newSelection f2 p2 e2)
            else (t.Select f1 p1 e1).selectionMap a) } :=
      select_install _ f2 p2 e2 hC2b
    rw [hs12]
    show (if e2.ActorIDHex = e2.ActorIDHex
        then some (newSelection f2 p2 e2)
        else (t.Select f1 p1 e1).selectionMap e2.ActorIDHex) = _
    rw [if_pos rfl]

/-- C3 witness: on the example Text with a stored selection at lamport
100, the two Select calls at lamports 2 and 3 commute. -/
theorem C3_select_lww_corrected_witness :
    (exTextSel.Select (exPos 0) (exPos 3) (exTicket 2)).Select (exPos 1) (exPos 2)
        (exTicket 3)
      = (exTextSel.Select (exPos 1) (exPos 2) (exTicket 3)).Select (exPos 0)
          (exPos 3) (exTicket 2) :=
  (C3_select_lww_corrected exTextSel (exPos 0) (exPos 3) (exPos 1) (exPos 2)
      (exTicket 2) (exTicket 3) rfl (by decide)).1

/-- C5: `Text.String` concatenates, in sequence order, exactly the
values of the nodes that are not tombstoned and are not sentinels — the
synthetic initial head is outside the rendered node list by
construction, and the node whose creation ticket equals the creation
ticket of the Text (the final placeholder) is excluded; `Text.Marshal`
selects exactly the same nodes. Tombstoned nodes contribute nothing. -/
theorem C5_render_filters_live_nonsentinel (t : Text) :
    t.String = ((t.rgaTreeSplit.nodes.filter (fun n =>
          !(n.createdAt.Compare t.createdAt == Ordering.eq)
          && n.removedAt.isNone)).map (fun n => n.value.value)).flatten
    ∧ t.Marshal = (t.rgaTreeSplit.nodes.filter (fun n =>
          !(n.createdAt.Compare t.createdAt == Ordering.eq)
          && n.removedAt.isNone)).map (fun n => n.value) :=
  ⟨textStringLoop_eq_filter t.createdAt t.rgaTreeSplit.nodes,
   textMarshalLoop_eq_filter t.createdAt t.rgaTreeSplit.nodes⟩

/-- C1 counterexample: splitting the value holding the single code point
U+10000 at UTF-16 offset 1 (inside its surrogate pair) replaces both
halves by the replacement character, so concatenating the receiver and
the returned value does not reconstruct the original string. -/
theorem C1_split_counterexample :
    ¬ ((suppValue.Split 1).1.value ++ (suppValue.Split 1).2.value
        = suppValue.value) := by
  decide

/-- C1 as amended: for every TextValue over Unicode scalar values and
every UTF-16 offset k up to Len, the receiver Len plus the returned Len
equals the original Len; and when k does not fall strictly inside a
surrogate pair of the encoding, concatenating the receiver value and the
returned value reconstructs the original string. -/
theorem C1_split_len_roundtrip_corrected (t : TextValue) (k : Nat)
    (hv : ∀ r ∈ t.value, ValidRune r) (hk : k ≤ t.Len) :
    ((t.Split k).1.Len + (t.Split k).2.Len = t.Len)
    ∧ (¬ splitsSurrogatePair (utf16Encode t.value) k →
        (t.Split k).1.value ++ (t.Split k).2.value = t.value) := by
  constructor
  · show (utf16Encode (utf16Decode ((utf16Encode t.value).take k))).length
        + (utf16Encode (utf16Decode ((utf16Encode t.value).drop k))).length
        = (utf16Encode t.value).length
    have hb : ∀ x ∈ utf16Encode t.value, x < 0x10000 := utf16Encode_bound t.value
    rw [utf16Encode_decode_length _ (fun x hx => hb x (List.mem_of_mem_take hx)),
        utf16Encode_decode_length _ (fun x hx => hb x (List.mem_of_mem_drop hx))]
    rw [List.length_take, List.length_drop]
    unfold TextValue.Len at hk
    omega
  · intro hnb
    show utf16Decode ((utf16Encode t.value).take k)
        ++ utf16Decode ((utf16Encode t.value).drop k) = t.value
    rw [utf16Decode_split (utf16Encode t.value) k hnb]
    exact utf16Decode_encode t.value hv

/-- C1 witness: splitting "HELLO" at UTF-16 offset 2 preserves the total
length and reconstructs the string by concatenation. -/
theorem C1_split_witness :
    ((helloValue.Split 2).1.Len + (helloValue.Split 2).2.Len = helloValue.Len)
    ∧ (helloValue.Split 2).1.value ++ (helloValue.Split 2).2.value
        = helloValue.value :=
  ⟨(C1_split_len_roundtrip_corrected helloValue 2 (by decide) (by decide)).1,
   (C1_split_len_roundtrip_corrected helloValue 2 (by decide) (by decide)).2
     (by decide)⟩

/-- C4: when the target of a Set operation does not resolve to an
Object (it is absent or an element of another kind), Execute reports the
error and returns the document state unchanged — no member write happens
and nothing is registered in the identity registry. -/
theorem C4_set_wrong_target_error_no_change (o : operation.Set)
    (root : json.Root)
    (h : ∀ m ca, root.FindByCreatedAt o.parentCreatedAt
        ≠ some (json.Element.object m ca)) :
    o.Execute root = (root, some "fail to execute, only Object can execute Set") := by
  unfold operation.Set.Execute
  split
  next m ca heq => exact absurd heq (h m ca)
  next hne => rfl

/-- C4 witness: executing the example Set operation against the registry
whose ticket-7 slot holds a Text element fails and leaves the registry
untouched. -/
theorem C4_set_wrong_target_witness :
    operation.exSet.Execute json.exRootText
      = (json.exRootText, some "fail to execute, only Object can execute Set") :=
  C4_set_wrong_target_error_no_change operation.exSet json.exRootText
    (by
      intro m ca hcontra
      simp [json.Root.FindByCreatedAt, json.exRootText] at hcontra)

/-- C8: when the target of a Set operation resolves to an Object,
Execute succeeds (no error), the member write is applied through the
Object members table, and the value element is registered in the
identity registry under its own creation ticket; every other registry
slot is untouched. -/
theorem C8_set_execute_object_success (o : operation.Set) (root : json.Root)
    (m : String → Option json.Element) (ca : crdt.Ticket)
    (h : root.FindByCreatedAt o.parentCreatedAt
        = some (json.Element.object m ca)) :
    (o.Execute root).2 = none
    ∧ (o.Execute root).1.FindByCreatedAt o.value.createdAt = some o.value
    ∧ (o.value.createdAt ≠ o.parentCreatedAt →
        (o.Execute root).1.FindByCreatedAt o.parentCreatedAt
          = some (json.Element.object (json.objectSet m o.key o.value) ca))
    ∧ (∀ tk, tk ≠ o.value.createdAt → tk ≠ o.parentCreatedAt →
        (o.Execute root).1.FindByCreatedAt tk = root.FindByCreatedAt tk) := by
  have hex : o.Execute root
      = (json.Root.RegisterElement
          ⟨fun tk =>
            if tk = o.parentCreatedAt then
              some (json.Element.object (json.objectSet m o.key o.value) ca)
            else root.elementMap tk⟩ o.value, none) := by
    unfold operation.Set.Execute
    split
    next m2 ca2 heq =>
      rw [h] at heq
      injection heq with h2
      injection h2 with hm hca
      subst hm
      subst hca
      rfl
    next hne => exact absurd h (hne m ca)
  refine ⟨by rw [hex], ?_, ?_, ?_⟩
  · rw [hex]
    show (if o.value.createdAt = o.value.createdAt then some o.value
          else _) = some o.value
    rw [if_pos rfl]
  · intro hne
    rw [hex]
    show (if o.parentCreatedAt = o.value.createdAt then some o.value
          else if o.parentCreatedAt = o.parentCreatedAt then
            some (json.Element.object (json.objectSet m o.key o.value) ca)
          else root.elementMap o.parentCreatedAt)
        = some (json.Element.object (json.objectSet m o.key o.value) ca)
    rw [if_neg (fun hh => hne hh.symm), if_pos rfl]
  · intro tk h1 h2
    rw [hex]
    show (if tk = o.value.createdAt then some o.value
          else if tk = o.parentCreatedAt then
            some (json.Element.object (json.objectSet m o.key o.value) ca)
          else root.elementMap tk)
        = root.FindByCreatedAt tk
    rw [if_neg h1, if_neg h2]
    rfl

/-- C8 witness: executing the example Set operation against the registry
whose ticket-7 slot holds an empty Object succeeds and registers the
written primitive under its own ticket. -/
theorem C8_set_execute_object_witness :
    (operation.exSet.Execute json.exRootObject).2 = none
    ∧ (operation.exSet.Execute json.exRootObject).1.FindByCreatedAt
        json.exPrim.createdAt = some json.exPrim := by
  have h := C8_set_execute_object_success operation.exSet json.exRootObject
      (fun _ => none) (crdt.exTicket 7) rfl
  exact ⟨h.1, h.2.1⟩

/-- C6: on the example Text whose single node records an insertion
predecessor that resolves nowhere, DeepCopy reaches the missing-
predecessor branch (the Go code executes a process-aborting panic there,
modelled as none); and when every recorded predecessor resolves — here,
when no node records one — DeepCopy completes and returns an independent
Text with the same creation ticket. -/
theorem C6_deepcopy_missing_predecessor (t : Text)
    (hclean : ∀ n ∈ t.Nodes, n.InsPrevID = none) :
    badPrevText.DeepCopy = none
    ∧ ∃ t2, t.DeepCopy = some t2 ∧ t2.createdAt = t.createdAt := by
  constructor
  · rfl
  · have hloop : ∀ (ns : List RGATreeSplitNode) (copied : List RGATreeSplitNode),
        (∀ n ∈ ns, n.InsPrevID = none) →
        ∃ res, deepCopyNodes copied ns = some res := by
      intro ns
      induction ns with
      | nil => intro copied _; exact ⟨copied, rfl⟩
      | cons node rest ih =>
        intro copied h
        have hn : node.InsPrevID = none := h node (by simp)
        obtain ⟨res, hres⟩ := ih (copied ++
            [{ id := node.id, value := node.value.DeepCopy,
               removedAt := node.removedAt, insPrevID := none }])
          (fun n hn2 => h n (by simp [hn2]))
        refine ⟨res, ?_⟩
        simp only [deepCopyNodes, hn]
        exact hres
    obtain ⟨res, hres⟩ := hloop t.Nodes [] hclean
    refine ⟨NewText ⟨res⟩ t.createdAt, ?_, rfl⟩
    unfold Text.DeepCopy
    rw [hres]

/-- C6 witness: the example Text "HELLO" records no insertion
predecessors, so its deep copy succeeds and keeps the creation ticket. -/
theorem C6_deepcopy_witness :
    ∃ t2, helloText.DeepCopy = some t2 ∧ t2.createdAt = helloText.createdAt :=
  (C6_deepcopy_missing_predecessor helloText
      (by intro n hn; simp [Text.Nodes, helloText, NewText] at hn; rw [hn]; rfl)).2

/-- C7 counterexample: styling the Text holding the single code point
U+10000 with a boundary offset inside its surrogate pair splits the
fragment through the pair, so the rendered text changes (both halves
decode to the replacement character), contradicting the claim that
String is unchanged by any Style call. -/
theorem C7_style_counterexample :
    (suppText.Style (exPos 1) (exPos 2) [("bold", "true")] (exTicket 5)).String
      ≠ suppText.String := by
  decide

/-- C7 as amended: when every fragment holds Unicode scalar values and
both boundary offsets fall on code-point boundaries, Style leaves the
rendered String unchanged; unconditionally it never sets a tombstone —
every node of the result carries the tombstone and origin ticket of a
node of the original sequence — and the selection map, creation ticket,
move ticket and removal ticket of the Text are unchanged. -/
theorem C7_style_frame_corrected (t : Text) (fromPos toPos : RGATreeSplitNodePos)
    (attributes : Attributes) (executedAt : Ticket) :
    ((∀ n ∈ t.rgaTreeSplit.nodes, ∀ r ∈ n.value.value, ValidRune r) →
      (∀ n ∈ t.rgaTreeSplit.nodes, n.id = toPos.id →
        ¬ splitsSurrogatePair (utf16Encode n.value.value) toPos.relativeOffset) →
      (∀ n ∈ (splitAtPos t.rgaTreeSplit.nodes toPos).1, n.id = fromPos.id →
        ¬ splitsSurrogatePair (utf16Encode n.value.value)
            fromPos.relativeOffset) →
      (t.Style fromPos toPos attributes executedAt).String = t.String)
    ∧ (∀ n2 ∈ (t.Style fromPos toPos attributes executedAt).rgaTreeSplit.nodes,
        ∃ n1 ∈ t.rgaTreeSplit.nodes,
          n2.removedAt = n1.removedAt ∧ n2.id.createdAt = n1.id.createdAt)
    ∧ (t.Style fromPos toPos attributes executedAt).selectionMap = t.selectionMap
    ∧ (t.Style fromPos toPos attributes executedAt).createdAt = t.createdAt
    ∧ (t.Style fromPos toPos attributes executedAt).movedAt = t.movedAt
    ∧ (t.Style fromPos toPos attributes executedAt).removedAt = t.removedAt := by
  have hf : ∀ n, (applyAttrs attributes executedAt n).value.value = n.value.value
      ∧ (applyAttrs attributes executedAt n).removedAt = n.removedAt
      ∧ (applyAttrs attributes executedAt n).id = n.id :=
    fun n => ⟨rfl, rfl, rfl⟩
  refine ⟨?_, ?_, rfl, rfl, rfl, rfl⟩
  · intro hv hbTo hbFrom
    show textStringLoop t.createdAt
        (styleBetween
          (splitAtPos (splitAtPos t.rgaTreeSplit.nodes toPos).1 fromPos).2
          (splitAtPos t.rgaTreeSplit.nodes toPos).2
          (applyAttrs attributes executedAt)
          (splitAtPos (splitAtPos t.rgaTreeSplit.nodes toPos).1 fromPos).1)
      = textStringLoop t.createdAt t.rgaTreeSplit.nodes
    rw [textStringLoop_congr t.createdAt _ _
      (styleBetween_view _ _ _ hf
        (splitAtPos (splitAtPos t.rgaTreeSplit.nodes toPos).1 fromPos).1)]
    rw [textStringLoop_splitAtPos t.createdAt fromPos _
      (splitAtPos_valid toPos _ hv) hbFrom]
    exact textStringLoop_splitAtPos t.createdAt toPos _ hv hbTo
  · intro n2 hn2
    have hn2b : n2 ∈ styleBetween
        (splitAtPos (splitAtPos t.rgaTreeSplit.nodes toPos).1 fromPos).2
        (splitAtPos t.rgaTreeSplit.nodes toPos).2
        (applyAttrs attributes executedAt)
        (splitAtPos (splitAtPos t.rgaTreeSplit.nodes toPos).1 fromPos).1 := hn2
    have step : ∀ m,
        m ∈ (splitAtPos (splitAtPos t.rgaTreeSplit.nodes toPos).1 fromPos).1 →
        ∃ n1 ∈ t.rgaTreeSplit.nodes, m.removedAt = n1.removedAt
          ∧ m.id.createdAt = n1.id.createdAt := by
      intro m hm
      obtain ⟨na, hna, ha1, ha2⟩ := splitAtPos_provenance fromPos _ m hm
      obtain ⟨nb, hnb, hb1, hb2⟩ := splitAtPos_provenance toPos _ na hna
      exact ⟨nb, hnb, ha1.trans hb1, ha2.trans hb2⟩
    rcases styleBetween_provenance _ _ _ _ n2 hn2b with h1 | ⟨n1, hn1, he⟩
    · exact step n2 h1
    · obtain ⟨nb, hnb, h3, h4⟩ := step n1 hn1
      obtain ⟨e1, e2, e3⟩ := hf n1
      refine ⟨nb, hnb, ?_, ?_⟩
      · rw [he, e2]
        exact h3
      · rw [he, e3]
        exact h4

/-- C7 witness: styling "HELLO" over the UTF-16 range (1, 3) leaves the
rendered string unchanged. -/
theorem C7_style_witness :
    (helloText.Style (exPos 1) (exPos 3) [("bold", "true")] (exTicket 5)).String
      = helloText.String :=
  (C7_style_frame_corrected helloText (exPos 1) (exPos 3) [("bold", "true")]
      (exTicket 5)).1 (by decide) (by decide) (by decide)
